import Mathlib

/-!
Verification of the PEPITA-tools image-analysis pipeline (src/analyze.py,
src/imageops.py) against its natural-language specification.

The embedding models:
- Python / numpy double values as exact rationals extended with NaN and
  positive infinity (binary rounding is not modelled; at the integer
  magnitudes reached by this pipeline the embedded operations are exact);
- numpy integer arrays as lists of naturals (pixels) with explicit modular
  arithmetic where the dtype can wrap;
- the int64 accumulation done by np.sum and the += operator via an explicit
  wrap at 2 to the 64;
- the skimage peak detector and the OpenCV contour routines, which are
  external libraries, as parameters (a list of coordinates, a list of
  contours with their fitted ellipse axes), constrained by the documented
  properties of those libraries where a claim needs them.
-/

/-- Model of a Python or numpy double as used by the pipeline: NaN, positive
infinity, or a finite value represented exactly as a rational.  Negative
infinity does not arise in the embedded code paths. -/
inductive F where
  | nan : F
  | inf : F
  | val : ℚ → F
deriving DecidableEq

/-- CPython float floor division, the binary // on two Python floats.  A zero
divisor raises ZeroDivisionError, modelled as none; CPython checks the divisor
before looking at the dividend, so nan // 0.0 also raises.  A NaN divisor, or
a NaN or infinite dividend with a finite nonzero divisor, yields NaN; a finite
dividend with an infinite divisor yields 0.0 or -1.0 by sign. -/
def pyFloorDivF (x y : F) : Option F :=
  match y with
  | F.val q =>
    if q = 0 then none
    else some (match x with
      | F.val p => F.val ⌊p / q⌋
      | _ => F.nan)
  | F.nan => some F.nan
  | F.inf => some (match x with
      | F.val p => if 0 ≤ p then F.val 0 else F.val (-1)
      | _ => F.nan)

/-- Floor division of a numpy int64 scalar by a Python float, as numpy
performs it: both operands are promoted to float64 and floor-divided.  A zero
divisor does not raise; numpy emits a RuntimeWarning and produces a float
whose exact value depends on the numpy version, which the embedding keeps
abstract as the zeroDiv argument. -/
def npFloorDivF (zeroDiv : F) (k : ℤ) (c : F) : F :=
  match c with
  | F.val q => if q = 0 then zeroDiv else F.val ⌊(k : ℚ) / q⌋
  | F.nan => F.nan
  | F.inf => if 0 ≤ k then F.val 0 else F.val (-1)

/-- Wrap an integer into the two-complement int64 range, the behaviour of
numpy int64 arithmetic on overflow. -/
def int64wrap (n : ℤ) : ℤ := (n + 2 ^ 63) % 2 ^ 64 - 2 ^ 63

/-- Raw score of a well record as stored by Image.get_raw_value in analyze.py:
np.nan (a Python float) when the integer score was not positive, otherwise the
positive score itself, which is a numpy int64 scalar. -/
inductive RawValue where
  | nan : RawValue
  | score : ℕ → RawValue
deriving DecidableEq

/-- Image.get_raw_value, analyze.py lines 98-103, applied to the integer
score returned by imageops.score: score if score > 0 else np.nan. -/
def get_raw_value (s : ℤ) : RawValue :=
  if 0 < s then RawValue.score s.toNat else RawValue.nan

/-- Comparison val < cap between a float and a Python int, used by
Image.normalize; false when val is NaN or infinite. -/
def fltLtInt (v : F) (c : ℤ) : Bool :=
  match v with
  | F.val q => decide (q < (c : ℚ))
  | _ => false

/-- The cap step of Image.normalize, analyze.py lines 119-122: with cap > 0
keep val only when val < cap, storing np.nan otherwise; with cap <= 0 always
keep val. -/
def applyCap (cap : ℤ) (v : F) : F :=
  if 0 < cap then (if fltLtInt v cap then v else F.nan) else v

/-- Result of Image.normalize for one record: the stored normalized value and
whether the except-branch diagnostic print ran. -/
structure NormOutcome where
  normalized : F
  diagnostic : Bool
deriving DecidableEq

/-- Image.normalize, analyze.py lines 116-127, for one record, given the
control median for the plate of the record (a Python float).  When the raw
value is np.nan, the expression raw * 100 // control is a CPython float
floor division, which raises ZeroDivisionError on a zero control; the except
branch prints a diagnostic and stores np.nan.  When the raw value is a
positive score it is a numpy int64 scalar, raw * 100 wraps in int64, and the
floor division is performed by numpy, which never raises ZeroDivisionError:
on a zero control it warns and produces the version-dependent float zeroDiv.
The float(...) wrapper is the identity on the value and is omitted. -/
def Image.normalize (zeroDiv : F) (raw : RawValue) (control : F) (cap : ℤ) : NormOutcome :=
  match raw with
  | RawValue.nan =>
    match pyFloorDivF F.nan control with
    | none => ⟨F.nan, true⟩
    | some v => ⟨applyCap cap v, false⟩
  | RawValue.score k =>
    ⟨applyCap cap (npFloorDivF zeroDiv (int64wrap ((k : ℤ) * 100)) control), false⟩

lemma int64wrap_eq_self {n : ℤ} (h0 : 0 ≤ n) (h1 : n < 2 ^ 63) : int64wrap n = n := by
  unfold int64wrap
  have h : (n + 2 ^ 63) % 2 ^ 64 = n + 2 ^ 63 :=
    Int.emod_eq_of_lt (by omega) (by omega)
  omega

lemma applyCap_nan (cap : ℤ) : applyCap cap F.nan = F.nan := by
  unfold applyCap fltLtInt
  split <;> rfl

/-- C2: the claim asserts that a zero control median always produces the
diagnostic print and a stored NaN.  In the code, a record with a positive raw
score holds it as a numpy int64, so the floor division by the zero Python
float is performed by numpy, which does not raise ZeroDivisionError: the
except branch is dead for positive scores, no diagnostic is printed whatever
float the numpy division returns, and when numpy returns inf and cap <= 0 the
stored value is inf, which is not a missing value. -/
theorem c2_code_eval :
    (∀ z : F, (Image.normalize z (RawValue.score 500) (F.val 0) (-1)).diagnostic = false)
    ∧ (Image.normalize F.inf (RawValue.score 500) (F.val 0) (-1)).normalized = F.inf
    ∧ F.inf ≠ F.nan := by
  refine ⟨fun z => rfl, ?_, by decide⟩
  have hw : int64wrap ((500 : ℤ) * 100) = 50000 := by decide
  simp [Image.normalize, npFloorDivF, hw, applyCap]

/-- C3: for a record with a non-missing raw score and a nonzero finite
control median, normalize with cap > 0 stores a missing value iff the
computed value floor(raw * 100 / control) is at least cap, and with cap <= 0
it always stores the computed value.  The hypothesis hk rules out int64
overflow of raw * 100, which cannot occur for scores produced by the
pipeline. -/
theorem c3_cap_boundary (z : F) (k : ℕ) (q : ℚ) (cap : ℤ)
    (hq : q ≠ 0) (hk : (k : ℤ) * 100 < 2 ^ 63) :
    (0 < cap →
      ((Image.normalize z (RawValue.score k) (F.val q) cap).normalized = F.nan ↔
        cap ≤ ⌊(k : ℚ) * 100 / q⌋))
    ∧ (cap ≤ 0 →
      (Image.normalize z (RawValue.score k) (F.val q) cap).normalized
        = F.val ⌊(k : ℚ) * 100 / q⌋) := by
  have hw : int64wrap ((k : ℤ) * 100) = (k : ℤ) * 100 :=
    int64wrap_eq_self (by positivity) hk
  have hcast : (((k : ℤ) * 100 : ℤ) : ℚ) = (k : ℚ) * 100 := by push_cast; ring
  constructor
  · intro hcap
    simp only [Image.normalize, npFloorDivF, hw, if_neg hq, applyCap, if_pos hcap, fltLtInt,
      decide_eq_true_eq, hcast]
    split
    · rename_i hlt
      refine iff_of_false (by simp) ?_
      have h2 : ⌊(k : ℚ) * 100 / q⌋ < cap := by exact_mod_cast hlt
      omega
    · rename_i hlt
      refine iff_of_true rfl ?_
      have h2 : ((cap : ℤ) : ℚ) ≤ ((⌊(k : ℚ) * 100 / q⌋ : ℤ) : ℚ) := not_lt.mp hlt
      exact_mod_cast h2
  · intro hcap
    simp only [Image.normalize, npFloorDivF, hw, if_neg hq, applyCap,
      if_neg (by omega : ¬ 0 < cap), hcast]

/-- Witness for C3 at a concrete input: raw score 200, control median 150,
floor(200 * 100 / 150) = 133, which is below the cap 150, so the value is
stored; and with cap -1 it is stored as well. -/
theorem c3_cap_boundary_witness :
    ((Image.normalize F.nan (RawValue.score 200) (F.val 150) 150).normalized = F.nan ↔
      (150 : ℤ) ≤ ⌊((200 : ℕ) : ℚ) * 100 / 150⌋) := by
  exact (c3_cap_boundary F.nan 200 150 150 (by norm_num) (by norm_num)).1 (by norm_num)

/-- C4: a record whose raw score is missing always stores a missing
normalized value, for every cap and every control median, zero, nonzero
finite, NaN or infinite, and for every float the numpy zero division could
produce. -/
theorem c4_missing_propagation (z : F) (c : F) (cap : ℤ) :
    (Image.normalize z RawValue.nan c cap).normalized = F.nan := by
  rcases c with _ | _ | q
  · simp [Image.normalize, pyFloorDivF, applyCap_nan]
  · simp [Image.normalize, pyFloorDivF, applyCap_nan]
  · by_cases hq : q = 0
    · simp [Image.normalize, pyFloorDivF, hq]
    · simp [Image.normalize, pyFloorDivF, hq, applyCap_nan]

/-- The three integer image types the pipeline supports, in the order built
by _get_bit_depth: np.uint8, np.uint16, np.int32. -/
inductive PixelType where
  | u8 : PixelType
  | u16 : PixelType
  | i32 : PixelType
deriving DecidableEq

/-- The list of (type, max representable value) pairs built inside
imageops._get_bit_depth. -/
def bitDepthTypes : List (PixelType × ℕ) :=
  [(PixelType.u8, 255), (PixelType.u16, 65535), (PixelType.i32, 2147483647)]

/-- np.digitize with right=True over an ascending bin list: the index i such
that bins[i-1] < v <= bins[i], that is, the number of bins strictly below
v. -/
def digitizeRight (v : ℕ) (bins : List ℕ) : ℕ :=
  (bins.filter (fun b => decide (b < v))).length

/-- imageops._get_bit_depth, lines 207-209, as a function of the maximal
pixel value v of the image: index the three-element type list at the
digitize result.  When v exceeds the largest boundary the index is 3 and the
Python list indexing raises IndexError, modelled as none. -/
def _get_bit_depth (v : ℕ) : Option (PixelType × ℕ) :=
  bitDepthTypes[digitizeRight v (bitDepthTypes.map Prod.snd)]?


lemma get_bit_depth_eval (v : ℕ) :
    _get_bit_depth v =
      if v ≤ 255 then some (PixelType.u8, 255)
      else if v ≤ 65535 then some (PixelType.u16, 65535)
      else if v ≤ 2147483647 then some (PixelType.i32, 2147483647)
      else none := by
  have step : ∀ b : ℕ, b < v → decide (b < v) = true := fun b h => decide_eq_true h
  have step2 : ∀ b : ℕ, v ≤ b → decide (b < v) = false := fun b h =>
    decide_eq_false (Nat.not_lt.mpr h)
  by_cases c1 : v ≤ 255
  · rw [if_pos c1]
    unfold _get_bit_depth digitizeRight bitDepthTypes
    simp [List.filter_cons, step2 255 c1, step2 65535 (by omega), step2 2147483647 (by omega)]
  · rw [if_neg c1]
    by_cases c2 : v ≤ 65535
    · rw [if_pos c2]
      unfold _get_bit_depth digitizeRight bitDepthTypes
      simp [List.filter_cons, step 255 (by omega), step2 65535 c2,
        step2 2147483647 (by omega)]
    · rw [if_neg c2]
      by_cases c3 : v ≤ 2147483647
      · rw [if_pos c3]
        unfold _get_bit_depth digitizeRight bitDepthTypes
        simp [List.filter_cons, step 255 (by omega), step 65535 (by omega),
          step2 2147483647 c3]
      · rw [if_neg c3]
        unfold _get_bit_depth digitizeRight bitDepthTypes
        simp [List.filter_cons, step 255 (by omega), step 65535 (by omega),
          step 2147483647 (by omega)]

/-- C5: for every observed maximum pixel value v up to 2147483647 the
resolver returns the representation with the minimal boundary at least v
among 255, 65535 and 2147483647, and for larger v it fails (an IndexError
from the out-of-range list index) rather than silently falling back.  The
last conjunct states minimality of the returned boundary explicitly. -/
theorem c5_bit_depth (v : ℕ) :
    (v ≤ 255 → _get_bit_depth v = some (PixelType.u8, 255))
    ∧ (255 < v → v ≤ 65535 → _get_bit_depth v = some (PixelType.u16, 65535))
    ∧ (65535 < v → v ≤ 2147483647 → _get_bit_depth v = some (PixelType.i32, 2147483647))
    ∧ (2147483647 < v → _get_bit_depth v = none)
    ∧ (∀ t m, _get_bit_depth v = some (t, m) →
        v ≤ m ∧ ∀ p ∈ bitDepthTypes, v ≤ p.2 → m ≤ p.2) := by
  rw [get_bit_depth_eval]
  refine ⟨?_, ?_, ?_, ?_, ?_⟩
  · intro h
    rw [if_pos h]
  · intro h h2
    rw [if_neg (by omega), if_pos h2]
  · intro h h2
    rw [if_neg (by omega), if_neg (by omega), if_pos h2]
  · intro h
    rw [if_neg (by omega), if_neg (by omega), if_neg (by omega)]
  · intro t m h
    by_cases c1 : v ≤ 255
    · rw [if_pos c1] at h
      injection h with h
      injection h with ht hm
      subst hm
      refine ⟨c1, ?_⟩
      intro p hp _
      simp only [bitDepthTypes, List.mem_cons, List.not_mem_nil, or_false] at hp
      rcases hp with rfl | rfl | rfl <;> simp
    · rw [if_neg c1] at h
      by_cases c2 : v ≤ 65535
      · rw [if_pos c2] at h
        injection h with h
        injection h with ht hm
        subst hm
        refine ⟨c2, ?_⟩
        intro p hp hpv
        simp only [bitDepthTypes, List.mem_cons, List.not_mem_nil, or_false] at hp
        rcases hp with rfl | rfl | rfl <;> simp at hpv ⊢ <;> omega
      · rw [if_neg c2] at h
        by_cases c3 : v ≤ 2147483647
        · rw [if_pos c3] at h
          injection h with h
          injection h with ht hm
          subst hm
          refine ⟨c3, ?_⟩
          intro p hp hpv
          simp only [bitDepthTypes, List.mem_cons, List.not_mem_nil, or_false] at hp
          rcases hp with rfl | rfl | rfl <;> simp at hpv ⊢ <;> omega
        · rw [if_neg c3] at h
          exact absurd h (by simp)

/-- Witness for C5: the resolver maps the concrete observed maxima 300 and
3000000000 to uint16 and to the out-of-range failure respectively. -/
theorem c5_bit_depth_witness :
    _get_bit_depth 300 = some (PixelType.u16, 65535) ∧ _get_bit_depth 3000000000 = none :=
  ⟨(c5_bit_depth 300).2.1 (by omega) (by omega),
    (c5_bit_depth 3000000000).2.2.2.1 (by omega)⟩

/-- Maximum entry of a pixel list, with 0 for the empty list, modelling the
img.max() call on the arrays used by the pipeline. -/
def maxOfList (l : List ℕ) : ℕ := l.foldl max 0

/-- Ascending insertion, the helper of the sort used to model np.median. -/
def insertAsc (v : ℕ) : List ℕ → List ℕ
  | [] => [v]
  | h :: t => if v ≤ h then v :: h :: t else h :: insertAsc v t

/-- Ascending insertion sort of a pixel list. -/
def sortAsc (l : List ℕ) : List ℕ := l.foldr insertAsc []

/-- np.median of a nonempty list of integer pixels: the middle element of
the sorted list for odd length, the mean of the two middle elements for even
length, exact in float64 at these magnitudes.  The empty case, excluded by
the hypotheses wherever this definition is used, is given the junk value 0
where numpy would warn and produce NaN. -/
def npMedian (l : List ℕ) : ℚ :=
  let s := sortAsc l
  let n := s.length
  if n % 2 = 1 then ((s.getD (n / 2) 0 : ℕ) : ℚ)
  else (((s.getD (n / 2 - 1) 0 : ℕ) : ℚ) + ((s.getD (n / 2) 0 : ℕ) : ℚ)) / 2

/-- The masked-median scaling step of imageops.subtract, lines 192-198.
threshold_px is the maximal representable value of the observed bit depth of
the minuend times the threshold; the intersection mask keeps the indices
where both images strictly exceed it; the subtrahend is multiplied by the
float ratio of the two masked medians and cast back to the integer dtype by
truncation (floor, all values being nonnegative).  Returns none where the
Python code has no well-defined pixel values: an observed maximum above the
int32 bound (IndexError inside _get_bit_depth), an empty intersection mask
(NaN medians), or a zero subtrahend median (division by zero); in the last
two cases numpy would push NaN or inf through the float-to-int cast, whose
result is unspecified, and the spec already requires the caller to ensure a
non-empty intersection mask. -/
def scaledSubtrahend (minuend subtrahend : List ℕ) (threshold : ℚ) : Option (List ℕ) :=
  match _get_bit_depth (maxOfList minuend) with
  | none => none
  | some t =>
    let tpx : ℚ := (t.2 : ℚ) * threshold
    let pairs := (minuend.zip subtrahend).filter
      (fun p => decide ((p.1 : ℚ) > tpx) && decide ((p.2 : ℚ) > tpx))
    if pairs.isEmpty then none
    else
      let mm := npMedian (pairs.map Prod.fst)
      let sm := npMedian (pairs.map Prod.snd)
      if sm = 0 then none
      else some (subtrahend.map (fun y => (⌊(y : ℚ) * (mm / sm)⌋).toNat))

/-- imageops.subtract, lines 191-200: optionally scale the subtrahend via
scaledSubtrahend, then compute np.where(minuend < subtrahend, 0, minuend -
subtrahend) pixelwise, where the subtraction is performed in the unsigned
dtype of the arrays and therefore wraps modulo the dtype modulus M (256 for
uint8, 65536 for uint16). -/
def subtract (M : ℕ) (minuend subtrahend : List ℕ) (scale : Bool) (threshold : ℚ) :
    Option (List ℕ) :=
  match (if scale then scaledSubtrahend minuend subtrahend threshold else some subtrahend) with
  | none => none
  | some sb =>
    some (List.zipWith (fun x y => if x < y then 0 else (x + M - y) % M) minuend sb)

lemma subtract_pixel {M x y : ℕ} (hx : x < M) :
    (if x < y then 0 else (x + M - y) % M) = (max 0 ((x : ℤ) - y)).toNat := by
  split
  · rename_i hxy
    have h2 : (x : ℤ) - y ≤ 0 := by omega
    rw [max_eq_left h2]
    rfl
  · rename_i hxy
    have hyx : y ≤ x := Nat.le_of_not_lt hxy
    have h1 : x + M - y = (x - y) + M := by omega
    rw [h1, Nat.add_mod_right, Nat.mod_eq_of_lt (by omega)]
    have h2 : (0 : ℤ) ≤ (x : ℤ) - y := by omega
    rw [max_eq_right h2]
    omega

/-- C6: for every pair of same-bit-depth images (all pixels below the dtype
modulus M) on which subtract produces a result, and every pixel index, the
result pixel equals max(0, minuend - scaled subtrahend) where the scaled
subtrahend is the image produced by the masked-median scaling step: the
result is never negative (it is a natural number equal to the clamped
difference) and never wraps around, in particular it never exceeds the
minuend pixel. -/
theorem c6_subtract_no_underflow (M : ℕ) (a b : List ℕ) (sc : Bool) (t : ℚ)
    (sb res : List ℕ)
    (ha : ∀ x ∈ a, x < M)
    (hsb : (if sc then scaledSubtrahend a b t else some b) = some sb)
    (hres : subtract M a b sc t = some res)
    (i : ℕ) (hi : i < res.length) :
    ((res.getD i 0 : ℕ) : ℤ) = max 0 ((a.getD i 0 : ℤ) - (sb.getD i 0 : ℤ))
    ∧ res.getD i 0 ≤ a.getD i 0 := by
  unfold subtract at hres
  rw [hsb] at hres
  have hres2 : res = List.zipWith (fun x y => if x < y then 0 else (x + M - y) % M) a sb := by
    cases hres
    rfl
  subst hres2
  rw [List.length_zipWith] at hi
  have hia : i < a.length := lt_of_lt_of_le hi (by simp)
  have hib : i < sb.length := lt_of_lt_of_le hi (by simp)
  have hgz : (List.zipWith (fun x y => if x < y then 0 else (x + M - y) % M) a sb).getD i 0
      = if a[i] < sb[i] then 0 else (a[i] + M - sb[i]) % M := by
    rw [List.getD_eq_getElem _ _ (by rw [List.length_zipWith]; exact hi)]
    exact List.getElem_zipWith
  rw [hgz, List.getD_eq_getElem a 0 hia, List.getD_eq_getElem sb 0 hib,
    subtract_pixel (ha a[i] (List.getElem_mem hia))]
  constructor
  · exact Int.toNat_of_nonneg (le_max_left 0 _)
  · omega

lemma c6aux_scaled :
    scaledSubtrahend [100, 50] [40, 80] (1 / 200) = some [50, 100] := by
  have hbd : _get_bit_depth (maxOfList [100, 50]) = some (PixelType.u8, 255) := by
    have : maxOfList [100, 50] = 100 := by decide
    rw [this, get_bit_depth_eval]
    norm_num
  unfold scaledSubtrahend
  rw [hbd]
  norm_num [List.zip, List.zipWith, List.filter, npMedian, sortAsc, insertAsc]
  decide

lemma c6aux_res :
    subtract 256 [100, 50] [40, 80] true (1 / 200) = some [50, 0] := by
  unfold subtract
  rw [if_pos rfl, c6aux_scaled]
  rfl

/-- Witness for C6 at a concrete input: minuend [100, 50], subtrahend
[40, 80], uint8 modulus 256, scaling enabled with the default threshold
0.005; the masked medians are 75 and 60, the scaled subtrahend is [50, 100],
and the result pixel 0 is 50 = max(0, 100 - 50) while pixel 1 clamps to
0. -/
theorem c6_subtract_no_underflow_witness :
    ((([50, 0] : List ℕ).getD 0 0 : ℤ)
        = max 0 ((([100, 50] : List ℕ).getD 0 0 : ℤ) - (([50, 100] : List ℕ).getD 0 0 : ℤ))
      ∧ ([50, 0] : List ℕ).getD 0 0 ≤ ([100, 50] : List ℕ).getD 0 0) :=
  c6_subtract_no_underflow 256 [100, 50] [40, 80] true (1 / 200) [50, 100] [50, 0]
    (by decide) (by rw [if_pos rfl]; exact c6aux_scaled) c6aux_res 0 (by decide)

/-- An external contour as returned by cv.findContours, abstracted to what
get_aspect_mask consumes: the two axis lengths that cv.fitEllipse reports
(bound in the source as (minor, major)), and the filled pixel region that
cv.drawContours would paint for it. -/
structure Contour where
  minor : ℚ
  major : ℚ
  region : ℕ → ℕ → Bool

/-- imageops._aspect_is_between, lines 202-205: fit an ellipse, form the
aspect ratio major / minor, and test lower < ratio < upper (both strict). -/
def _aspect_is_between (c : Contour) (upper lower : ℚ) : Bool :=
  decide (c.major / c.minor < upper) && decide (c.major / c.minor > lower)

/-- cv.drawContours with a filled contour list over an existing canvas: every
pixel covered by some contour of the list receives the colour, every other
pixel keeps the canvas value.  On a single-channel canvas OpenCV uses the
first component of the colour tuple. -/
def drawContoursFilled (cs : List Contour) (colour : ℕ) (canvas : ℕ → ℕ → ℕ) :
    ℕ → ℕ → ℕ :=
  fun y x => if cs.any (fun c => c.region y x) then colour else canvas y x

/-- imageops.get_aspect_mask, lines 71-76: keep the contours whose aspect
ratio lies strictly between target over (1 + error bound) and target times
(1 + error bound), then draw them filled on a canvas of all 255.  The colour
tuple in the source is (0, 255, 0); the canvas np.ones(...) * 255 is single
channel, so the painted value is the first component, 0. -/
def get_aspect_mask (contours : List Contour) (target error_bound : ℚ) : ℕ → ℕ → ℕ :=
  let upper := target * (1 + error_bound)
  let lower := target / (1 + error_bound)
  drawContoursFilled
    (contours.filter (fun c => _aspect_is_between c upper lower)) 0 (fun _ _ => 255)

/-- The mask the claim describes: the same aspect filter, but with the kept
contours rendered at value 255 on the all-255 canvas.  Stated from the words
of the claim for comparison with the source behaviour. -/
def get_aspect_mask_claim (contours : List Contour) (target error_bound : ℚ) :
    ℕ → ℕ → ℕ :=
  let upper := target * (1 + error_bound)
  let lower := target / (1 + error_bound)
  drawContoursFilled
    (contours.filter (fun c => _aspect_is_between c upper lower)) 255 (fun _ _ => 255)

/-- Counterexample to C9 as stated: a kept contour (axes 1 and 5, aspect 5,
within the default band) covering pixel (0, 0) is rendered with value 0, not
255: the claimed all-255 rendering disagrees with the source at that
pixel. -/
theorem c9_counterexample :
    _aspect_is_between ⟨1, 5, fun _ _ => true⟩ (5 * (1 + 1 / 2)) (5 / (1 + 1 / 2)) = true
    ∧ get_aspect_mask [⟨1, 5, fun _ _ => true⟩] 5 (1 / 2) 0 0 = 0
    ∧ get_aspect_mask_claim [⟨1, 5, fun _ _ => true⟩] 5 (1 / 2) 0 0 = 255
    ∧ (0 : ℕ) ≠ 255 := by
  refine ⟨?_, ?_, ?_, by decide⟩
  · norm_num [_aspect_is_between]
  · norm_num [get_aspect_mask, drawContoursFilled, _aspect_is_between, List.filter]
  · norm_num [get_aspect_mask_claim, drawContoursFilled, _aspect_is_between, List.filter]

/-- C9 as amended: the mask keeps exactly the external contours whose fitted
aspect ratio lies strictly between target / (1 + error bound) and target *
(1 + error bound); every pixel is 0 or 255, and a pixel is 0 exactly when a
kept contour covers it, the background staying 255 — the kept contours are
rendered at 0, not at 255 as claimed.  The hypotheses assert positive axes
from cv.fitEllipse and a positive band factor, under which the exact
rational divisions used here coincide with the float divisions of the
source. -/
theorem c9_amended (contours : List Contour) (target eb : ℚ) (y x : ℕ)
    (heb : 0 < 1 + eb) (hax : ∀ c ∈ contours, 0 < c.minor) :
    (get_aspect_mask contours target eb y x = 0
      ∨ get_aspect_mask contours target eb y x = 255)
    ∧ (get_aspect_mask contours target eb y x = 0 ↔
        ∃ c ∈ contours, target / (1 + eb) < c.major / c.minor
          ∧ c.major / c.minor < target * (1 + eb) ∧ c.region y x = true) := by
  unfold get_aspect_mask drawContoursFilled
  by_cases h : (contours.filter (fun c => _aspect_is_between c (target * (1 + eb))
      (target / (1 + eb)))).any (fun c => c.region y x)
  · rw [if_pos h]
    refine ⟨Or.inl rfl, iff_of_true rfl ?_⟩
    rcases List.any_eq_true.mp h with ⟨c, hc, hr⟩
    rcases List.mem_filter.mp hc with ⟨hcmem, hcb⟩
    unfold _aspect_is_between at hcb
    rw [Bool.and_eq_true] at hcb
    exact ⟨c, hcmem, of_decide_eq_true hcb.2, of_decide_eq_true hcb.1, hr⟩
  · rw [if_neg h]
    refine ⟨Or.inr rfl, iff_of_false (by norm_num) ?_⟩
    rintro ⟨c, hcmem, hlo, hhi, hr⟩
    refine h (List.any_eq_true.mpr ⟨c, List.mem_filter.mpr ⟨hcmem, ?_⟩, hr⟩)
    unfold _aspect_is_between
    rw [Bool.and_eq_true]
    exact ⟨decide_eq_true hhi, decide_eq_true hlo⟩

/-- Witness for C9 as amended, at the concrete kept contour of the
counterexample: the mask value at (0, 0) is 0 and the existence of a kept
covering contour holds. -/
theorem c9_amended_witness :
    (get_aspect_mask [⟨1, 5, fun _ _ => true⟩] 5 (1 / 2) 0 0 = 0
      ∨ get_aspect_mask [⟨1, 5, fun _ _ => true⟩] 5 (1 / 2) 0 0 = 255)
    ∧ (get_aspect_mask [⟨1, 5, fun _ _ => true⟩] 5 (1 / 2) 0 0 = 0 ↔
        ∃ c ∈ [(⟨1, 5, fun _ _ => true⟩ : Contour)],
          (5 : ℚ) / (1 + 1 / 2) < c.major / c.minor
          ∧ c.major / c.minor < 5 * (1 + 1 / 2) ∧ c.region 0 0 = true) :=
  c9_amended [⟨1, 5, fun _ _ => true⟩] 5 (1 / 2) 0 0 (by norm_num)
    (by intro c hc; simp only [List.mem_cons, List.not_mem_nil, or_false] at hc
        subst hc; norm_num)

/-- Failures of analyze.get_schematic: the Python IndexError raised when the
first-row or first-column deletion hits an empty list, and the UserError
raised when the cell counts still mismatch after the single strip, carrying
the found count and the target count. -/
inductive SchemErr where
  | indexError : SchemErr
  | userError : ℕ → ℕ → SchemErr
deriving DecidableEq

/-- One row of the parsed plate schematic, analyze.py line 159: drop the
cells in the ignore set, then apply _clean to each remaining cell.  The cell
type and the _clean text normalisation are kept abstract; the caller has
already added the empty string to the ignore set (lines 154-155). -/
def parseRow {α : Type} (clean : α → α) (ign : α → Bool) (row : List α) : List α :=
  (row.filter (fun w => ! ign w)).map clean

/-- The parsed schematic, analyze.py lines 158-160: parseRow on every CSV
row. -/
def parseSchematic {α : Type} (clean : α → α) (ign : α → Bool) (rows : List (List α)) :
    List (List α) :=
  rows.map (parseRow clean ign)

/-- Total number of non-ignored cells of a schematic, analyze.py line 162. -/
def cellCount {α : Type} (s : List (List α)) : ℕ := (s.map List.length).sum

/-- analyze.get_schematic, lines 150-173, for a given plate file (list of
CSV rows), with flat=True as used by main: parse and count the non-ignored
cells; on a count match return the flattened schematic; otherwise delete the
first row and the first cell of every remaining row (an IndexError when the
parsed schematic or one of its remaining rows is empty) and return the
flattened stripped schematic when the count now matches, else raise the
UserError reporting both counts. -/
def get_schematic {α : Type} (clean : α → α) (ign : α → Bool) (rows : List (List α))
    (target : ℕ) : Except SchemErr (List α) :=
  if cellCount (parseSchematic clean ign rows) = target then
    Except.ok (parseSchematic clean ign rows).flatten
  else
    match parseSchematic clean ign rows with
    | [] => Except.error SchemErr.indexError
    | _ :: rest =>
      if rest.any List.isEmpty then Except.error SchemErr.indexError
      else
        if cellCount (rest.map (List.drop 1)) = target then
          Except.ok (rest.map (List.drop 1)).flatten
        else Except.error (SchemErr.userError (cellCount (rest.map (List.drop 1))) target)

lemma parseRow_cons_keep {α : Type} (clean : α → α) (ign : α → Bool) (a : α) (r : List α)
    (ha : ign a = false) :
    parseRow clean ign (a :: r) = clean a :: parseRow clean ign r := by
  unfold parseRow
  rw [List.filter_cons, if_pos (by rw [ha]; rfl)]
  rfl

lemma parse_headered {α : Type} (clean : α → α) (ign : α → Bool) :
    ∀ (hcs : List α) (core : List (List α)), (∀ hc ∈ hcs, ign hc = false) →
    parseSchematic clean ign (List.zipWith (fun hc r => hc :: r) hcs core)
      = List.zipWith (fun hc r => clean hc :: parseRow clean ign r) hcs core
  | [], core, _ => by cases core <;> rfl
  | hc :: t, [], _ => rfl
  | hc :: t, r :: rs, h => by
    have h1 : ign hc = false := h hc (by simp)
    have ih := parse_headered clean ign t rs (fun x hx => h x (by simp [hx]))
    simp only [List.zipWith_cons_cons, parseSchematic, List.map_cons] at ih ⊢
    rw [parseRow_cons_keep clean ign hc r h1, ih]

lemma strip_zipWith {α : Type} (f : α → α) (g : List α → List α) :
    ∀ (hcs : List α) (rows : List (List α)), hcs.length = rows.length →
    (List.zipWith (fun hc r => f hc :: g r) hcs rows).map (List.drop 1) = rows.map g
  | [], [], _ => rfl
  | [], _ :: _, h => by simp at h
  | _ :: _, [], h => by simp at h
  | hc :: t, r :: rs, h => by
    simp only [List.zipWith_cons_cons, List.map_cons, List.drop_succ_cons, List.drop_zero]
    rw [strip_zipWith f g t rs (by simpa using h)]

lemma cellCount_zipWith_cons {α : Type} (f : α → α) (g : List α → List α) :
    ∀ (hcs : List α) (rows : List (List α)), hcs.length = rows.length →
    cellCount (List.zipWith (fun hc r => f hc :: g r) hcs rows)
      = rows.length + cellCount (rows.map g)
  | [], [], _ => rfl
  | [], _ :: _, h => by simp at h
  | _ :: _, [], h => by simp at h
  | hc :: t, r :: rs, h => by
    have ih := cellCount_zipWith_cons f g t rs (by simpa using h)
    simp only [List.zipWith_cons_cons, cellCount, List.map_cons, List.sum_cons,
      List.length_cons] at ih ⊢
    omega

lemma zipWith_cons_no_empty {α : Type} (f : α → α) (g : List α → List α) :
    ∀ (hcs : List α) (rows : List (List α)),
    (List.zipWith (fun hc r => f hc :: g r) hcs rows).any List.isEmpty = false
  | [], _ => by cases ‹List (List α)› <;> rfl
  | _ :: _, [] => rfl
  | hc :: t, r :: rs => by
    simp only [List.zipWith_cons_cons, List.any_cons, List.isEmpty_cons, Bool.false_or]
    exact zipWith_cons_no_empty f g t rs

/-- C7: parsing-and-counting round trip of the schematic header strip.  For
a headered schematic (a header row prepended, and a non-ignored header cell
prepended to each of the rows of a nonempty core whose non-ignored cell
count equals target), the counts mismatch, the single strip removes exactly
the header row and the header column, and the result equals the flattened
parsed core, which is also what the un-headered core itself yields; and for
every schematic whose count mismatches before and after the single strip, a
fatal user error carrying both counts is raised. -/
theorem c7_schematic_roundtrip {α : Type} (clean : α → α) (ign : α → Bool)
    (core : List (List α)) (hdrRow : List α) (hdrCells : List α) (target : ℕ)
    (hlen : hdrCells.length = core.length)
    (hne : core ≠ [])
    (hhdr : ∀ hc ∈ hdrCells, ign hc = false)
    (hcount : cellCount (parseSchematic clean ign core) = target) :
    (get_schematic clean ign (hdrRow :: List.zipWith (fun hc r => hc :: r) hdrCells core)
        target = Except.ok (parseSchematic clean ign core).flatten
      ∧ get_schematic clean ign core target
        = Except.ok (parseSchematic clean ign core).flatten)
    ∧ (∀ (rows : List (List α)) (t : ℕ) (r0 : List α) (rrest : List (List α)),
        parseSchematic clean ign rows = r0 :: rrest →
        cellCount (r0 :: rrest) ≠ t →
        rrest.any List.isEmpty = false →
        cellCount (rrest.map (List.drop 1)) ≠ t →
        get_schematic clean ign rows t
          = Except.error (SchemErr.userError (cellCount (rrest.map (List.drop 1))) t)) := by
  have hcorelen : 0 < core.length := List.length_pos.mpr hne
  have hps : parseSchematic clean ign
        (hdrRow :: List.zipWith (fun hc r => hc :: r) hdrCells core)
      = parseRow clean ign hdrRow
        :: List.zipWith (fun hc r => clean hc :: parseRow clean ign r) hdrCells core := by
    simp only [parseSchematic, List.map_cons]
    have := parse_headered clean ign hdrCells core hhdr
    simp only [parseSchematic] at this
    rw [this]
  have hstrip : (List.zipWith (fun hc r => clean hc :: parseRow clean ign r) hdrCells
        core).map (List.drop 1) = parseSchematic clean ign core :=
    strip_zipWith clean (parseRow clean ign) hdrCells core hlen
  have hcnt2 : cellCount (List.zipWith (fun hc r => clean hc :: parseRow clean ign r)
        hdrCells core) = core.length + target := by
    rw [cellCount_zipWith_cons clean (parseRow clean ign) hdrCells core hlen]
    have : core.map (parseRow clean ign) = parseSchematic clean ign core := rfl
    rw [this, hcount]
  refine ⟨⟨?_, ?_⟩, ?_⟩
  · unfold get_schematic
    rw [hps]
    have hbig : cellCount (parseRow clean ign hdrRow
          :: List.zipWith (fun hc r => clean hc :: parseRow clean ign r) hdrCells core)
        = (parseRow clean ign hdrRow).length + (core.length + target) := by
      simp only [cellCount, List.map_cons, List.sum_cons] at hcnt2 ⊢
      omega
    rw [if_neg (by omega)]
    simp only [zipWith_cons_no_empty clean (parseRow clean ign) hdrCells core,
      Bool.false_eq_true, if_false, hstrip, hcount]
    simp
  · unfold get_schematic
    rw [if_pos hcount]
  · intro rows t r0 rrest hparse hc1 hc2 hc3
    unfold get_schematic
    rw [hparse, if_neg (by rw [← hparse] at hc1; exact fun hx => hc1 (hparse ▸ hx))]
    simp only [hc2, Bool.false_eq_true, if_false, if_neg hc3]

/-- Witness for C7 at a concrete schematic: a 2 by 2 core of labels with a
header row and a header column strips to the flattened core of 4 cells. -/
theorem c7_schematic_roundtrip_witness :
    get_schematic id (fun s => s == "") [["", "A", "B"], ["1", "B", "T"], ["2", "B", "T"]] 4
      = Except.ok ["B", "T", "B", "T"] := by
  have h := (c7_schematic_roundtrip id (fun s => s == "")
      [["B", "T"], ["B", "T"]] ["", "A", "B"] ["1", "2"] 4
      (by decide) (by decide) (by decide) (by decide)).1.1
  have hz : List.zipWith (fun hc r => hc :: r) ["1", "2"]
      ([["B", "T"], ["B", "T"]] : List (List String)) = [["1", "B", "T"], ["2", "B", "T"]] := by
    decide
  have hfl : (parseSchematic id (fun s => s == "") [["B", "T"], ["B", "T"]]).flatten
      = ["B", "T", "B", "T"] := by decide
  rw [hz, hfl] at h
  exact h

/-- One well record as analyze.quantify constructs it: the plate id parsed
from the filename, the group label from the schematic, and the raw score the
imaging pipeline computes for it (see get_raw_value).  The xy position plays
no role in normalization and is omitted. -/
structure Rec where
  plate : String
  group : String
  raw : RawValue
deriving DecidableEq

/-- Errors that abort a run inside analyze.quantify: the UserError raised by
_calculate_control_values when no control wells exist at all, and the
uncaught Python KeyError escaping from the control_values[self.plate] lookup
of Image.normalize when the plate has no table entry. -/
inductive RunErr where
  | noControlWells : RunErr
  | keyError : String → RunErr
deriving DecidableEq

/-- Distinct plates of the control records.  np.unique returns them sorted;
the resulting list is only ever consumed as a dictionary with unique keys,
so the order is unobservable and the embedding dedups without sorting. -/
def uniquePlates : List String → List String
  | [] => []
  | p :: t =>
    let r := uniquePlates t
    if p ∈ r then r else p :: r

/-- np.nanmedian over the raw control values of one plate, analyze.py line
212: the median of the non-NaN values, or NaN (with a numpy warning) when
every value is NaN. -/
def nanmedian (vals : List RawValue) : F :=
  let xs := vals.filterMap (fun v => match v with
    | RawValue.nan => none
    | RawValue.score n => some n)
  if xs.isEmpty then F.nan else F.val (npMedian xs)

/-- The ctrl_vals dictionary of analyze._calculate_control_values, lines
207-212: over the distinct plates of the control records (the records whose
group is among the control labels), the plate paired with the nanmedian of
the raw values of the control records of that plate. -/
def controlTable (images : List Rec) (plate_control : List String) : List (String × F) :=
  (uniquePlates ((images.filter (fun img => plate_control.contains img.group)).map
      Rec.plate)).map
    (fun p => (p, nanmedian (((images.filter (fun img => plate_control.contains img.group)).filter
      (fun img => img.plate == p)).map Rec.raw)))

/-- analyze._calculate_control_values, lines 206-218: build the control
table and raise the no-control-wells UserError iff it is empty. -/
def _calculate_control_values (images : List Rec) (plate_control : List String) :
    Except RunErr (List (String × F)) :=
  if (controlTable images plate_control).isEmpty then Except.error RunErr.noControlWells
  else Except.ok (controlTable images plate_control)

/-- Lookup in the Python control-value dictionary; none models the KeyError
raised on a missing key. -/
def dictGet (tbl : List (String × F)) (p : String) : Option F :=
  match tbl with
  | [] => none
  | e :: t => if e.1 == p then some e.2 else dictGet t p

/-- Image.normalize including the control_values[self.plate] dictionary
lookup of analyze.py line 118, whose KeyError is not caught by the except
ZeroDivisionError handler and escapes to the caller. -/
def normalizeWithTable (zeroDiv : F) (tbl : List (String × F)) (cap : ℤ) (r : Rec) :
    Except RunErr NormOutcome :=
  match dictGet tbl r.plate with
  | none => Except.error (RunErr.keyError r.plate)
  | some c => Except.ok (Image.normalize zeroDiv r.raw c cap)

/-- The list comprehension of analyze.quantify line 204: normalize every
record in order, propagating the first uncaught exception. -/
def mapExcept (f : Rec → Except RunErr NormOutcome) :
    List Rec → Except RunErr (List NormOutcome)
  | [] => Except.ok []
  | r :: t =>
    match f r with
    | Except.error e => Except.error e
    | Except.ok v =>
      match mapExcept f t with
      | Except.error e => Except.error e
      | Except.ok vs => Except.ok (v :: vs)

/-- analyze.quantify, lines 199-204: keep the records whose group is a
control label or matches the group pattern, compute the control table, then
normalize every kept record against it. -/
def quantify (zeroDiv : F) (records : List Rec) (plate_control : List String) (cap : ℤ)
    (pat : String → Bool) : Except RunErr (List NormOutcome) :=
  match _calculate_control_values
      (records.filter (fun r => plate_control.contains r.group || pat r.group))
      plate_control with
  | Except.error e => Except.error e
  | Except.ok tbl =>
    mapExcept (normalizeWithTable zeroDiv tbl cap)
      (records.filter (fun r => plate_control.contains r.group || pat r.group))

lemma mem_uniquePlates (q : String) : ∀ l : List String, q ∈ uniquePlates l ↔ q ∈ l := by
  intro l
  induction l with
  | nil => simp [uniquePlates]
  | cons p t ih =>
    unfold uniquePlates
    by_cases hp : p ∈ uniquePlates t
    · rw [if_pos hp]
      constructor
      · intro h
        exact List.mem_cons_of_mem p (ih.mp h)
      · intro h
        rcases List.mem_cons.mp h with rfl | h
        · exact hp
        · exact ih.mpr h
    · rw [if_neg hp]
      constructor
      · intro h
        rcases List.mem_cons.mp h with rfl | h
        · exact List.mem_cons_self q t
        · exact List.mem_cons_of_mem p (ih.mp h)
      · intro h
        rcases List.mem_cons.mp h with rfl | h
        · exact List.mem_cons_self q _
        · exact List.mem_cons_of_mem p (ih.mpr h)

lemma uniquePlates_eq_nil : ∀ l : List String, uniquePlates l = [] ↔ l = [] := by
  intro l
  cases l with
  | nil => simp [uniquePlates]
  | cons p t =>
    unfold uniquePlates
    constructor
    · intro h
      by_cases hp : p ∈ uniquePlates t
      · rw [if_pos hp] at h
        rw [h] at hp
        cases hp
      · rw [if_neg hp] at h
        cases h
    · intro h
      cases h

lemma mapExcept_error_shape (f : Rec → Except RunErr NormOutcome)
    (hf : ∀ r e, f r = Except.error e → ∃ p, e = RunErr.keyError p) :
    ∀ (l : List Rec) (e : RunErr),
    mapExcept f l = Except.error e → ∃ p, e = RunErr.keyError p := by
  intro l
  induction l with
  | nil => intro e h; cases h
  | cons r t ih =>
    intro e h
    unfold mapExcept at h
    cases hr : f r with
    | error e2 =>
      rw [hr] at h
      have h3 : Except.error e2 = Except.error e := h
      injection h3 with h4
      subst h4
      exact hf r e2 hr
    | ok v =>
      rw [hr] at h
      cases hrec : mapExcept f t with
      | error e2 =>
        rw [hrec] at h
        have h3 : Except.error e2 = Except.error e := h
        injection h3 with h4
        subst h4
        exact ih e2 hrec
      | ok vs =>
        rw [hrec] at h
        have h3 : Except.ok (v :: vs) = Except.error e := h
        cases h3

lemma mapExcept_error_of_mem (f : Rec → Except RunErr NormOutcome) :
    ∀ (l : List Rec), (∃ r ∈ l, ∃ e, f r = Except.error e) →
    ∃ e, mapExcept f l = Except.error e := by
  intro l
  induction l with
  | nil => rintro ⟨r, hr, _⟩; cases hr
  | cons r t ih =>
    rintro ⟨r2, hr2, e2, he2⟩
    unfold mapExcept
    cases hr : f r with
    | error e3 => exact ⟨e3, rfl⟩
    | ok v =>
      have ht : ∃ r3 ∈ t, ∃ e3, f r3 = Except.error e3 := by
        rcases List.mem_cons.mp hr2 with rfl | h
        · rw [hr] at he2; cases he2
        · exact ⟨r2, h, e2, he2⟩
      rcases ih ht with ⟨e4, he4⟩
      rw [he4]
      exact ⟨e4, rfl⟩

lemma dictGet_map_none (v : String → F) :
    ∀ (keys : List String) (q : String),
    dictGet (keys.map (fun p => (p, v p))) q = none ↔ q ∉ keys := by
  intro keys
  induction keys with
  | nil => simp [dictGet]
  | cons p t ih =>
    intro q
    simp only [List.map_cons, dictGet, List.mem_cons]
    by_cases hpq : p = q
    · subst hpq
      rw [if_pos (by simp)]
      simp
    · rw [if_neg (by simpa using hpq)]
      rw [ih q]
      constructor
      · intro h hc
        rcases hc with rfl | hc
        · exact hpq rfl
        · exact h hc
      · intro h hc
        exact h (Or.inr hc)

lemma normalizeWithTable_error_shape (z : F) (tbl : List (String × F)) (cap : ℤ) :
    ∀ r e, normalizeWithTable z tbl cap r = Except.error e → ∃ p, e = RunErr.keyError p := by
  intro r e h
  unfold normalizeWithTable at h
  cases hd : dictGet tbl r.plate with
  | none => rw [hd] at h; cases h; exact ⟨r.plate, rfl⟩
  | some c => rw [hd] at h; cases h

/-- Counterexample to C8 as stated: a run over two plates, plate A holding a
control well (group B) and plate C holding only a treated well (group T)
under the default control label B.  Plate C has a non-control well being
normalized and zero control wells, but the run does not raise the
no-control-wells user error: the control table is nonempty thanks to plate
A, and normalizing the plate C record instead escapes with an uncaught
KeyError. -/
theorem c8_counterexample :
    quantify F.nan [⟨"A", "B", RawValue.score 100⟩, ⟨"C", "T", RawValue.score 50⟩]
      ["B"] (-1) (fun _ => true) = Except.error (RunErr.keyError "C")
    ∧ RunErr.keyError "C" ≠ RunErr.noControlWells :=
  ⟨rfl, by decide⟩

/-- C8 as amended: the no-control-wells fatal error is raised iff no
analyzed record at all carries a control group label (the control table is
empty); when some record is a control but another analyzed record sits on a
plate with zero control wells, the run still aborts before producing any
result, yet with an uncaught KeyError for that plate rather than with the
no-control-wells error.  A single plate whose wells are all labelled T under
the default control label B is an instance of the iff. -/
theorem c8_amended (z : F) (records : List Rec) (pc : List String) (cap : ℤ)
    (pat : String → Bool) :
    (quantify z records pc cap pat = Except.error RunErr.noControlWells ↔
      ∀ r ∈ records, pc.contains r.group = false)
    ∧ ((∃ rc ∈ records, pc.contains rc.group = true) →
      ∀ r ∈ records, (pc.contains r.group || pat r.group) = true →
      (∀ r2 ∈ records, pc.contains r2.group = true → r2.plate ≠ r.plate) →
      ∃ p, quantify z records pc cap pat = Except.error (RunErr.keyError p)) := by
  set imgs := records.filter (fun r => pc.contains r.group || pat r.group) with himgs
  have hmemctrl : ∀ r : Rec,
      r ∈ imgs.filter (fun img => pc.contains img.group)
        ↔ r ∈ records ∧ pc.contains r.group = true := by
    intro r
    rw [List.mem_filter, himgs, List.mem_filter]
    constructor
    · rintro ⟨⟨h1, _⟩, h3⟩
      exact ⟨h1, h3⟩
    · rintro ⟨h1, h2⟩
      exact ⟨⟨h1, by rw [h2]; rfl⟩, h2⟩
  have hctrl_nil : (imgs.filter (fun img => pc.contains img.group) = [])
      ↔ ∀ r ∈ records, pc.contains r.group = false := by
    constructor
    · intro h r hr
      by_contra hne
      have h2 : pc.contains r.group = true := by
        revert hne
        cases pc.contains r.group <;> simp
      have h3 : r ∈ imgs.filter (fun img => pc.contains img.group) :=
        (hmemctrl r).mpr ⟨hr, h2⟩
      rw [h] at h3
      cases h3
    · intro h
      cases hc : imgs.filter (fun img => pc.contains img.group) with
      | nil => rfl
      | cons x xs =>
        have hx : x ∈ imgs.filter (fun img => pc.contains img.group) := by
          rw [hc]
          exact List.mem_cons_self x xs
        rcases (hmemctrl x).mp hx with ⟨h1, h2⟩
        rw [h x h1] at h2
        cases h2
  have htbl_nil : ((controlTable imgs pc).isEmpty = true)
      ↔ ∀ r ∈ records, pc.contains r.group = false := by
    rw [List.isEmpty_iff, controlTable, List.map_eq_nil_iff, uniquePlates_eq_nil,
      List.map_eq_nil_iff, hctrl_nil]
  constructor
  · by_cases hce : ∀ r ∈ records, pc.contains r.group = false
    · have hemp : (controlTable imgs pc).isEmpty = true := htbl_nil.mpr hce
      have hq : quantify z records pc cap pat = Except.error RunErr.noControlWells := by
        unfold quantify _calculate_control_values
        rw [← himgs, if_pos hemp]
      rw [hq]
      exact iff_of_true rfl hce
    · have hemp : ¬ (controlTable imgs pc).isEmpty = true := fun hx => hce (htbl_nil.mp hx)
      have hq : quantify z records pc cap pat
          = mapExcept (normalizeWithTable z (controlTable imgs pc) cap) imgs := by
        unfold quantify _calculate_control_values
        rw [← himgs, if_neg hemp]
      rw [hq]
      refine iff_of_false ?_ hce
      intro hx
      rcases mapExcept_error_shape _ (normalizeWithTable_error_shape z _ cap) _ _ hx with
        ⟨p, hp⟩
      exact RunErr.noConfusion hp
  · rintro ⟨rc, hrc, hrcc⟩ r hr hcond hnoctrl
    have hemp : ¬ (controlTable imgs pc).isEmpty = true := by
      intro hx
      have h2 := htbl_nil.mp hx rc hrc
      rw [hrcc] at h2
      cases h2
    have hq : quantify z records pc cap pat
        = mapExcept (normalizeWithTable z (controlTable imgs pc) cap) imgs := by
      unfold quantify _calculate_control_values
      rw [← himgs, if_neg hemp]
    have hrimg : r ∈ imgs := by
      rw [himgs]
      exact List.mem_filter.mpr ⟨hr, hcond⟩
    have hdg : dictGet (controlTable imgs pc) r.plate = none := by
      rw [controlTable, dictGet_map_none, mem_uniquePlates]
      intro hmem
      rcases List.mem_map.mp hmem with ⟨r2, hr2, hpl⟩
      rcases (hmemctrl r2).mp hr2 with ⟨h1, h2⟩
      exact hnoctrl r2 h1 h2 hpl
    have herr : ∃ e, mapExcept (normalizeWithTable z (controlTable imgs pc) cap) imgs
        = Except.error e :=
      mapExcept_error_of_mem _ _ ⟨r, hrimg, RunErr.keyError r.plate, by
        unfold normalizeWithTable
        rw [hdg]⟩
    rcases herr with ⟨e, he⟩
    rcases mapExcept_error_shape _ (normalizeWithTable_error_shape z _ cap) _ _ he with
      ⟨p, hp⟩
    subst hp
    exact ⟨p, by rw [hq, he]⟩

/-- Witness for C8 as amended: a single plate whose only well is labelled T
under the default control label B raises the no-control-wells error, and the
two-plate run of the counterexample aborts with a KeyError. -/
theorem c8_amended_witness :
    quantify F.nan [⟨"P1", "T", RawValue.score 10⟩] ["B"] (-1) (fun _ => true)
      = Except.error RunErr.noControlWells
    ∧ ∃ p, quantify F.nan
        [⟨"A", "B", RawValue.score 100⟩, ⟨"C", "T", RawValue.score 50⟩]
        ["B"] (-1) (fun _ => true) = Except.error (RunErr.keyError p) :=
  ⟨(c8_amended F.nan [⟨"P1", "T", RawValue.score 10⟩] ["B"] (-1) (fun _ => true)).1.mpr
      (by decide),
    (c8_amended F.nan [⟨"A", "B", RawValue.score 100⟩, ⟨"C", "T", RawValue.score 50⟩]
        ["B"] (-1) (fun _ => true)).2
      ⟨⟨"A", "B", RawValue.score 100⟩, by decide, by decide⟩
      ⟨"C", "T", RawValue.score 50⟩ (by decide) (by decide) (by decide)⟩

/-- The pixel values collected by imageops.score for one local maximum,
lines 172-179: x iterates over the clamped bounding box range(x_min,
x_max + 1) with x_min = max(coord_x - radius, 0) and x_max = min(coord_x +
radius, width), y likewise, and pixels whose squared Euclidean distance
from the maximum exceeds radius squared are skipped before img[y][x] is
appended.  The image is a total function from (row, column) to pixel value;
under the border exclusion of the peak detector (used as a hypothesis
below) the upper clamp never binds and no out-of-range read occurs. -/
def pointsList (img : ℕ → ℕ → ℕ) (height width radius cy cx : ℕ) : List ℕ :=
  (List.range' (cx - radius) (min (cx + radius) width + 1 - (cx - radius))).flatMap
    (fun (x : ℕ) =>
      (List.range' (cy - radius) (min (cy + radius) height + 1 - (cy - radius))).filterMap
        (fun (y : ℕ) =>
          if ((x : ℤ) - cx) ^ 2 + ((y : ℤ) - cy) ^ 2 > (radius : ℤ) ^ 2 then none
          else some (img y x)))

/-- Descending insertion, the helper of the sort modelling
sorted(points, reverse=True). -/
def insertDesc (v : ℕ) : List ℕ → List ℕ
  | [] => [v]
  | h :: t => if h ≤ v then v :: h :: t else h :: insertDesc v t

/-- Descending insertion sort of the collected pixel values. -/
def sortDesc : List ℕ → List ℕ
  | [] => []
  | h :: t => insertDesc h (sortDesc t)

/-- The accumulation np.sum(relevant_points, dtype=np.int64), a left fold
with an int64 wrap at every addition. -/
def sumInt64 (l : List ℕ) : ℤ :=
  l.foldl (fun (acc : ℤ) (v : ℕ) => int64wrap (acc + (v : ℤ))) 0

/-- Contribution of one local maximum to the score, imageops.score lines
174-181: collect the circular neighbourhood, keep the first
int(len(points) * threshold_pct) entries of the descending sort, and sum
them as int64.  The float truncation int(len * 0.05) equals len * 5 / 100
in exact integer arithmetic for every length reachable here (the product of
a small integer with the double nearest 0.05 never crosses an integer
boundary), so the threshold is embedded as the exact fraction tn / td. -/
def perMaxSum (img : ℕ → ℕ → ℕ) (height width radius tn td : ℕ) (c : ℕ × ℕ) : ℤ :=
  sumInt64 ((sortDesc (pointsList img height width radius c.1 c.2)).take
    ((pointsList img height width radius c.1 c.2).length * tn / td))

/-- imageops.score, lines 166-182, as a function of the list of local maxima
that feature.peak_local_max returned; the detector is an external library
and its output enters as a parameter.  total starts as the Python int 0 and
becomes a numpy int64 after the first +=, so every accumulation wraps. -/
def score (img : ℕ → ℕ → ℕ) (height width radius tn td : ℕ)
    (coordinates : List (ℕ × ℕ)) : ℤ :=
  coordinates.foldl
    (fun total c => int64wrap (total + perMaxSum img height width radius tn td c)) 0

/-- Membership test of a pixel in the circular neighbourhood as the claim
words it: strict Euclidean distance below the radius when strict is true,
distance at most the radius otherwise. -/
def inDisc (strict : Bool) (radius cy cx x y : ℕ) : Bool :=
  if strict then decide (((x : ℤ) - cx) ^ 2 + ((y : ℤ) - cy) ^ 2 < (radius : ℤ) ^ 2)
  else decide (((x : ℤ) - cx) ^ 2 + ((y : ℤ) - cy) ^ 2 ≤ (radius : ℤ) ^ 2)

/-- The pixels the claim describes for one maximum: every pixel of the whole
image whose distance from the maximum passes the inDisc test, enumerated in
the same column-major order as the source loop. -/
def discPixels (strict : Bool) (img : ℕ → ℕ → ℕ) (height width radius cy cx : ℕ) :
    List ℕ :=
  (List.range width).flatMap (fun x =>
    (List.range height).filterMap (fun y =>
      if inDisc strict radius cy cx x y then some (img y x) else none))

/-- The per-maximum sum the claim describes: the brightest five percent of
the collected pixels (floor of one twentieth of their number), summed with
exact integer arithmetic. -/
def topBrightSum (l : List ℕ) : ℤ :=
  (((sortDesc l).take (l.length * 5 / 100)).map (fun (v : ℕ) => (v : ℤ))).sum

/-- The image score the claim describes: the plain sum over all detected
maxima of the per-maximum sums, with exact integer arithmetic. -/
def score_spec (strict : Bool) (img : ℕ → ℕ → ℕ) (height width radius : ℕ)
    (coords : List (ℕ × ℕ)) : ℤ :=
  (coords.map
    (fun c => topBrightSum (discPixels strict img height width radius c.1 c.2))).sum

/-- The all-zero image used by the C1 witness. -/
def imgZero : ℕ → ℕ → ℕ := fun _ _ => 0

/-- The concrete 17 by 17 image of the C1 counterexample: value 2000 at the
centre (8, 8), value 1000 at (8, 16), which lies at distance exactly 8 from
the centre, and 0 elsewhere. -/
def imgCx : ℕ → ℕ → ℕ := fun y x =>
  if y = 8 ∧ x = 8 then 2000 else if y = 8 ∧ x = 16 then 1000 else 0

lemma mem_insertDesc (v : ℕ) : ∀ (l : List ℕ) (a : ℕ),
    a ∈ insertDesc v l ↔ a = v ∨ a ∈ l
  | [], a => by simp [insertDesc]
  | h :: t, a => by
    unfold insertDesc
    split
    · simp
    · simp only [List.mem_cons, mem_insertDesc v t a]
      tauto

lemma mem_sortDesc : ∀ (l : List ℕ) (a : ℕ), a ∈ sortDesc l ↔ a ∈ l
  | [], a => Iff.rfl
  | h :: t, a => by
    unfold sortDesc
    rw [mem_insertDesc, mem_sortDesc t a, List.mem_cons]

lemma perm_insertDesc (v : ℕ) : ∀ l : List ℕ, (insertDesc v l).Perm (v :: l)
  | [] => List.Perm.refl _
  | h :: t => by
    unfold insertDesc
    split
    · exact List.Perm.refl _
    · exact ((perm_insertDesc v t).cons h).trans (List.Perm.swap v h t)

lemma perm_sortDesc : ∀ l : List ℕ, (sortDesc l).Perm l
  | [] => List.Perm.refl _
  | h :: t => (perm_insertDesc h (sortDesc t)).trans ((perm_sortDesc t).cons h)

lemma sorted_insertDesc (v : ℕ) : ∀ l : List ℕ, List.Sorted (· ≥ ·) l →
    List.Sorted (· ≥ ·) (insertDesc v l)
  | [], _ => List.sorted_singleton v
  | h :: t, hs => by
    rw [List.sorted_cons] at hs
    unfold insertDesc
    split
    · rename_i hle
      rw [List.sorted_cons]
      refine ⟨?_, List.sorted_cons.mpr hs⟩
      intro b hb
      rcases List.mem_cons.mp hb with rfl | hb
      · exact hle
      · exact le_trans (hs.1 b hb) hle
    · rename_i hgt
      rw [List.sorted_cons]
      refine ⟨?_, sorted_insertDesc v t hs.2⟩
      intro b hb
      rcases (mem_insertDesc v t b).mp hb with rfl | hb
      · omega
      · exact hs.1 b hb

lemma sorted_sortDesc : ∀ l : List ℕ, List.Sorted (· ≥ ·) (sortDesc l)
  | [] => List.sorted_nil
  | h :: t => sorted_insertDesc h (sortDesc t) (sorted_sortDesc t)

lemma filterMap_congr_mem {β : Type} (f g : ℕ → Option β) :
    ∀ l : List ℕ, (∀ a ∈ l, f a = g a) → l.filterMap f = l.filterMap g
  | [], _ => rfl
  | a :: t, h => by
    rw [List.filterMap_cons, List.filterMap_cons, h a (List.mem_cons_self a t),
      filterMap_congr_mem f g t (fun x hx => h x (List.mem_cons_of_mem a hx))]

lemma flatMap_congr_mem {β : Type} (f g : ℕ → List β) :
    ∀ l : List ℕ, (∀ a ∈ l, f a = g a) → l.flatMap f = l.flatMap g
  | [], _ => rfl
  | a :: t, h => by
    rw [List.flatMap_cons, List.flatMap_cons, h a (List.mem_cons_self a t),
      flatMap_congr_mem f g t (fun x hx => h x (List.mem_cons_of_mem a hx))]

lemma flatMap_eq_nil_of_all {β : Type} (f : ℕ → List β) :
    ∀ l : List ℕ, (∀ a ∈ l, f a = []) → l.flatMap f = []
  | [], _ => rfl
  | a :: t, h => by
    rw [List.flatMap_cons, h a (List.mem_cons_self a t), List.nil_append]
    exact flatMap_eq_nil_of_all f t (fun x hx => h x (List.mem_cons_of_mem a hx))

lemma range_split (n s len : ℕ) (hsl : s + len ≤ n) :
    List.range n = (List.range' 0 s ++ List.range' s len) ++ List.range' (s + len) (n - s - len) := by
  have e1 := List.range'_append 0 s len 1
  rw [one_mul, zero_add] at e1
  have e2 := List.range'_append 0 (s + len) (n - s - len) 1
  rw [one_mul, zero_add] at e2
  rw [e1]
  have e4 : len + s = s + len := by omega
  rw [e4, e2, List.range_eq_range']
  congr 1
  omega

lemma filterMap_range_shrink {β : Type} (f : ℕ → Option β) (n s len : ℕ)
    (hsl : s + len ≤ n)
    (h1 : ∀ k, k < s → f k = none) (h2 : ∀ k, s + len ≤ k → f k = none) :
    (List.range n).filterMap f = (List.range' s len).filterMap f := by
  rw [range_split n s len hsl, List.filterMap_append, List.filterMap_append]
  have g1 : (List.range' 0 s).filterMap f = [] := by
    rw [List.filterMap_eq_nil_iff]
    intro a ha
    rcases List.mem_range'_1.mp ha with ⟨_, hlt⟩
    exact h1 a (by omega)
  have g2 : (List.range' (s + len) (n - s - len)).filterMap f = [] := by
    rw [List.filterMap_eq_nil_iff]
    intro a ha
    rcases List.mem_range'_1.mp ha with ⟨hge, _⟩
    exact h2 a hge
  rw [g1, g2, List.nil_append, List.append_nil]

lemma flatMap_range_shrink {β : Type} (f : ℕ → List β) (n s len : ℕ)
    (hsl : s + len ≤ n)
    (h1 : ∀ k, k < s → f k = []) (h2 : ∀ k, s + len ≤ k → f k = []) :
    (List.range n).flatMap f = (List.range' s len).flatMap f := by
  rw [range_split n s len hsl, List.flatMap_append, List.flatMap_append]
  have g1 : (List.range' 0 s).flatMap f = [] := by
    apply flatMap_eq_nil_of_all
    intro a ha
    rcases List.mem_range'_1.mp ha with ⟨_, hlt⟩
    exact h1 a (by omega)
  have g2 : (List.range' (s + len) (n - s - len)).flatMap f = [] := by
    apply flatMap_eq_nil_of_all
    intro a ha
    rcases List.mem_range'_1.mp ha with ⟨hge, _⟩
    exact h2 a hge
  rw [g1, g2, List.nil_append, List.append_nil]

lemma sq_dist_big {u v : ℤ} (h : 9 ≤ u ∨ u ≤ -9) : (8 : ℤ) ^ 2 < u ^ 2 + v ^ 2 := by
  have h1 : (81 : ℤ) ≤ u ^ 2 := by
    rcases h with h | h <;> nlinarith
  nlinarith [sq_nonneg v]

lemma discPixels_eq_pointsList (img : ℕ → ℕ → ℕ) (h w cy cx : ℕ)
    (hx1 : 8 ≤ cx) (hx2 : cx + 8 < w) (hy1 : 8 ≤ cy) (hy2 : cy + 8 < h) :
    discPixels false img h w 8 cy cx = pointsList img h w 8 cy cx := by
  unfold discPixels pointsList
  rw [min_eq_left (by omega : cx + 8 ≤ w), min_eq_left (by omega : cy + 8 ≤ h),
    (by omega : cx + 8 + 1 - (cx - 8) = 17), (by omega : cy + 8 + 1 - (cy - 8) = 17)]
  have hpoint : ∀ x y : ℕ,
      (if inDisc false 8 cy cx x y then some (img y x) else none)
      = (if ((x : ℤ) - cx) ^ 2 + ((y : ℤ) - cy) ^ 2 > ((8 : ℕ) : ℤ) ^ 2 then none
        else some (img y x)) := by
    intro x y
    have hred : inDisc false 8 cy cx x y
        = decide (((x : ℤ) - cx) ^ 2 + ((y : ℤ) - cy) ^ 2 ≤ ((8 : ℕ) : ℤ) ^ 2) := rfl
    rw [hred]
    by_cases hd : ((x : ℤ) - cx) ^ 2 + ((y : ℤ) - cy) ^ 2 ≤ ((8 : ℕ) : ℤ) ^ 2
    · rw [if_pos (decide_eq_true hd), if_neg (not_lt.mpr hd)]
    · rw [if_neg (by simpa using hd), if_pos (not_le.mp hd)]
  have hinner : ∀ x : ℕ,
      (List.range h).filterMap
        (fun y => if inDisc false 8 cy cx x y then some (img y x) else none)
      = (List.range' (cy - 8) 17).filterMap
        (fun (y : ℕ) => if ((x : ℤ) - cx) ^ 2 + ((y : ℤ) - cy) ^ 2 > ((8 : ℕ) : ℤ) ^ 2
          then none else some (img y x)) := by
    intro x
    rw [filterMap_congr_mem _ _ (List.range h) (fun y _ => hpoint x y)]
    apply filterMap_range_shrink _ h (cy - 8) 17 (by omega)
    · intro k hk
      rw [if_pos ?_]
      have hbig := @sq_dist_big ((k : ℤ) - cy) ((x : ℤ) - cx) (Or.inr (by omega))
      have h8 : ((8 : ℕ) : ℤ) = (8 : ℤ) := by norm_num
      rw [h8]
      linarith
    · intro k hk
      rw [if_pos ?_]
      have hbig := @sq_dist_big ((k : ℤ) - cy) ((x : ℤ) - cx) (Or.inl (by omega))
      have h8 : ((8 : ℕ) : ℤ) = (8 : ℤ) := by norm_num
      rw [h8]
      linarith
  rw [flatMap_congr_mem _ _ (List.range w) (fun x _ => hinner x)]
  apply flatMap_range_shrink _ w (cx - 8) 17 (by omega)
  · intro k hk
    rw [List.filterMap_eq_nil_iff]
    intro y hy
    rw [if_pos ?_]
    have hbig := @sq_dist_big ((k : ℤ) - cx) ((y : ℤ) - cy) (Or.inr (by omega))
    have h8 : ((8 : ℕ) : ℤ) = (8 : ℤ) := by norm_num
    rw [h8]
    linarith
  · intro k hk
    rw [List.filterMap_eq_nil_iff]
    intro y hy
    rw [if_pos ?_]
    have hbig := @sq_dist_big ((k : ℤ) - cx) ((y : ℤ) - cy) (Or.inl (by omega))
    have h8 : ((8 : ℕ) : ℤ) = (8 : ℤ) := by norm_num
    rw [h8]
    linarith

lemma foldl_wrap_general {α : Type} (f : α → ℤ) (B : ℤ) (hB : 0 ≤ B) :
    ∀ (l : List α) (acc : ℤ), 0 ≤ acc → (∀ v ∈ l, 0 ≤ f v ∧ f v ≤ B) →
    acc + (l.length : ℤ) * B < 2 ^ 63 →
    l.foldl (fun t v => int64wrap (t + f v)) acc = acc + (l.map f).sum
  | [], acc, _, _, _ => by simp
  | v :: t, acc, hacc, hl, hbound => by
    have hv := hl v (List.mem_cons_self v t)
    have hlen : (((v :: t).length : ℕ) : ℤ) = (t.length : ℤ) + 1 := by
      simp
    rw [hlen] at hbound
    have htB : (0 : ℤ) ≤ (t.length : ℤ) * B := mul_nonneg (by positivity) hB
    have hexp : acc + ((t.length : ℤ) + 1) * B = acc + (t.length : ℤ) * B + B := by ring
    have hs : acc + f v + (t.length : ℤ) * B < 2 ^ 63 := by linarith [hv.2]
    have hwrap : int64wrap (acc + f v) = acc + f v :=
      int64wrap_eq_self (by linarith [hv.1]) (by linarith)
    rw [List.foldl_cons, hwrap,
      foldl_wrap_general f B hB t (acc + f v) (by linarith [hv.1])
        (fun x hx => hl x (List.mem_cons_of_mem v hx)) hs,
      List.map_cons, List.sum_cons]
    ring

lemma sum_cast_bounds (B : ℕ) : ∀ l : List ℕ, (∀ v ∈ l, v ≤ B) →
    0 ≤ (l.map (fun (v : ℕ) => (v : ℤ))).sum
    ∧ (l.map (fun (v : ℕ) => (v : ℤ))).sum ≤ (l.length : ℤ) * B
  | [], _ => by simp
  | v :: t, hl => by
    have hv := hl v (List.mem_cons_self v t)
    have ih := sum_cast_bounds B t (fun x hx => hl x (List.mem_cons_of_mem v hx))
    rw [List.map_cons, List.sum_cons, List.length_cons]
    constructor
    · have hv0 : (0 : ℤ) ≤ (v : ℤ) := by positivity
      linarith [ih.1]
    · have hlen : (((t.length + 1 : ℕ)) : ℤ) * B = (t.length : ℤ) * B + B := by
        push_cast
        ring
      rw [hlen]
      have hvz : (v : ℤ) ≤ (B : ℤ) := by exact_mod_cast hv
      linarith [ih.2]

lemma length_flatMap_le {β : Type} (f : ℕ → List β) (m : ℕ) :
    ∀ l : List ℕ, (∀ a ∈ l, (f a).length ≤ m) → (l.flatMap f).length ≤ l.length * m
  | [], _ => by simp
  | a :: t, hl => by
    rw [List.flatMap_cons, List.length_append, List.length_cons, Nat.succ_mul]
    have h1 := hl a (List.mem_cons_self a t)
    have h2 := length_flatMap_le f m t (fun x hx => hl x (List.mem_cons_of_mem a hx))
    omega

lemma pointsList_length_le_289 (img : ℕ → ℕ → ℕ) (h w cy cx : ℕ)
    (hx1 : 8 ≤ cx) (hx2 : cx + 8 < w) (hy1 : 8 ≤ cy) (hy2 : cy + 8 < h) :
    (pointsList img h w 8 cy cx).length ≤ 289 := by
  unfold pointsList
  rw [min_eq_left (by omega : cx + 8 ≤ w), min_eq_left (by omega : cy + 8 ≤ h),
    (by omega : cx + 8 + 1 - (cx - 8) = 17), (by omega : cy + 8 + 1 - (cy - 8) = 17)]
  have hb := length_flatMap_le
    (fun (x : ℕ) => (List.range' (cy - 8) 17).filterMap
      (fun (y : ℕ) => if ((x : ℤ) - cx) ^ 2 + ((y : ℤ) - cy) ^ 2 > ((8 : ℕ) : ℤ) ^ 2
        then none else some (img y x)))
    17 (List.range' (cx - 8) 17)
    (fun a _ => le_trans (List.length_filterMap_le _ _) (by rw [List.length_range']))
  rw [List.length_range'] at hb
  exact le_trans hb (by norm_num)

lemma mem_pointsList (img : ℕ → ℕ → ℕ) (h w radius cy cx v : ℕ)
    (hv : v ∈ pointsList img h w radius cy cx) : ∃ y x, v = img y x := by
  unfold pointsList at hv
  rcases List.mem_flatMap.mp hv with ⟨x, _, hx⟩
  rcases List.mem_filterMap.mp hx with ⟨y, _, hy⟩
  refine ⟨y, x, ?_⟩
  by_cases hd : ((x : ℤ) - cx) ^ 2 + ((y : ℤ) - cy) ^ 2 > (radius : ℤ) ^ 2
  · rw [if_pos hd] at hy
    cases hy
  · rw [if_neg hd] at hy
    injection hy with hy
    exact hy.symm

lemma perMaxSum_eq (img : ℕ → ℕ → ℕ) (h w : ℕ) (c : ℕ × ℕ)
    (hpix : ∀ y x, img y x ≤ 65535)
    (hx1 : 8 ≤ c.2) (hx2 : c.2 + 8 < w) (hy1 : 8 ≤ c.1) (hy2 : c.1 + 8 < h) :
    perMaxSum img h w 8 5 100 c = topBrightSum (discPixels false img h w 8 c.1 c.2)
    ∧ 0 ≤ perMaxSum img h w 8 5 100 c
    ∧ perMaxSum img h w 8 5 100 c ≤ 289 * 65535 := by
  have hdp := discPixels_eq_pointsList img h w c.1 c.2 hx1 hx2 hy1 hy2
  unfold perMaxSum topBrightSum
  rw [hdp]
  have hTmem : ∀ v ∈ (sortDesc (pointsList img h w 8 c.1 c.2)).take
      ((pointsList img h w 8 c.1 c.2).length * 5 / 100), v ≤ 65535 := by
    intro v hv
    have h1 : v ∈ sortDesc (pointsList img h w 8 c.1 c.2) := List.take_subset _ _ hv
    have h2 : v ∈ pointsList img h w 8 c.1 c.2 := (mem_sortDesc _ v).mp h1
    rcases mem_pointsList img h w 8 c.1 c.2 v h2 with ⟨y, x, rfl⟩
    exact hpix y x
  have hTlen : ((sortDesc (pointsList img h w 8 c.1 c.2)).take
      ((pointsList img h w 8 c.1 c.2).length * 5 / 100)).length ≤ 289 := by
    rw [List.length_take]
    have hl289 := pointsList_length_le_289 img h w c.1 c.2 hx1 hx2 hy1 hy2
    exact le_trans (min_le_left _ _) (by omega)
  have hsum : sumInt64 ((sortDesc (pointsList img h w 8 c.1 c.2)).take
        ((pointsList img h w 8 c.1 c.2).length * 5 / 100))
      = (((sortDesc (pointsList img h w 8 c.1 c.2)).take
        ((pointsList img h w 8 c.1 c.2).length * 5 / 100)).map (fun (v : ℕ) => (v : ℤ))).sum := by
    unfold sumInt64
    rw [foldl_wrap_general (fun v : ℕ => (v : ℤ)) 65535 (by norm_num) _ 0 le_rfl
      (fun v hv => ⟨by show (0 : ℤ) ≤ ((v : ℕ) : ℤ); positivity,
        by show ((v : ℕ) : ℤ) ≤ 65535; exact_mod_cast hTmem v hv⟩) ?_]
    · rw [zero_add]
    · have hz : (((sortDesc (pointsList img h w 8 c.1 c.2)).take
          ((pointsList img h w 8 c.1 c.2).length * 5 / 100)).length : ℤ) ≤ 289 := by
        exact_mod_cast hTlen
      nlinarith
  refine ⟨hsum, ?_, ?_⟩
  · rw [hsum]
    exact (sum_cast_bounds 65535 _ hTmem).1
  · rw [hsum]
    have hb := (sum_cast_bounds 65535 _ hTmem).2
    have hz : (((sortDesc (pointsList img h w 8 c.1 c.2)).take
        ((pointsList img h w 8 c.1 c.2).length * 5 / 100)).length : ℤ) ≤ 289 := by
      exact_mod_cast hTlen
    have hz0 : (0 : ℤ) ≤ (((sortDesc (pointsList img h w 8 c.1 c.2)).take
        ((pointsList img h w 8 c.1 c.2).length * 5 / 100)).length : ℤ) := by positivity
    have hcast : ((65535 : ℕ) : ℤ) = 65535 := by norm_num
    rw [hcast] at hb
    nlinarith [hb, hz, hz0]

/-- C1 as amended: for a 16-bit image and any list of at most count = 10
maxima returned by the peak detector (whose min_distance = radius = 8 border
exclusion keeps every maximum at least 8 pixels from every edge), the score
computed by imageops.score equals the claim total with the inclusive disc
test: per maximum, exactly the pixels at Euclidean distance at most the
radius (not strictly below it — pixels at distance exactly 8 are collected),
the brightest five percent of them (floor of one twentieth of the count)
summed, the per-maximum sums added up, all without int64 overflow, so the
wrapping int64 arithmetic agrees with the exact integer result. -/
theorem c1_amended (img : ℕ → ℕ → ℕ) (h w : ℕ) (coords : List (ℕ × ℕ))
    (hpix : ∀ y x, img y x ≤ 65535)
    (hcount : coords.length ≤ 10)
    (hborder : ∀ c ∈ coords, 8 ≤ c.1 ∧ c.1 + 8 < h ∧ 8 ≤ c.2 ∧ c.2 + 8 < w) :
    score img h w 8 5 100 coords = score_spec false img h w 8 coords := by
  unfold score score_spec
  have hper : ∀ c ∈ coords,
      perMaxSum img h w 8 5 100 c = topBrightSum (discPixels false img h w 8 c.1 c.2)
      ∧ 0 ≤ perMaxSum img h w 8 5 100 c
      ∧ perMaxSum img h w 8 5 100 c ≤ 289 * 65535 := by
    intro c hc
    rcases hborder c hc with ⟨h1, h2, h3, h4⟩
    exact perMaxSum_eq img h w c hpix h3 h4 h1 h2
  rw [foldl_wrap_general (perMaxSum img h w 8 5 100) (289 * 65535) (by norm_num) coords 0
    le_rfl (fun c hc => ⟨(hper c hc).2.1, (hper c hc).2.2⟩) ?_]
  · rw [zero_add]
    exact congrArg List.sum (List.map_congr_left (fun c hc => (hper c hc).1))
  · have hlen : ((coords.length : ℕ) : ℤ) ≤ 10 := by exact_mod_cast hcount
    have h0 : (0 : ℤ) ≤ ((coords.length : ℕ) : ℤ) := by positivity
    nlinarith [hlen, h0]

/-- Witness for C1 as amended at the all-zero 17 by 17 image with the single
centred maximum, where both sides evaluate to 0. -/
theorem c1_amended_witness :
    score imgZero 17 17 8 5 100 [(8, 8)] = score_spec false imgZero 17 17 8 [(8, 8)] :=
  c1_amended imgZero 17 17 [(8, 8)] (fun _ _ => Nat.zero_le _) (by decide) (by decide)

set_option maxRecDepth 100000 in
/-- Counterexample to C1 as stated: on the 17 by 17 image with value 2000 at
the centred maximum (8, 8) and value 1000 at (8, 16) — Euclidean distance
exactly 8 from the maximum — the source collects the pixel at distance
exactly the radius (its inside test only skips distances strictly greater),
so the score is 3000, while the claim total with the strict inside-radius
test excludes it and yields 2000. -/
theorem c1_counterexample :
    score imgCx 17 17 8 5 100 [(8, 8)] = 3000
    ∧ score_spec true imgCx 17 17 8 [(8, 8)] = 2000
    ∧ score imgCx 17 17 8 5 100 [(8, 8)] ≠ score_spec true imgCx 17 17 8 [(8, 8)] := by
  refine ⟨by decide, by decide, by decide⟩

/-- C10: when the circular neighbourhood of a maximum collects fewer than 20
pixels, int(len(points) * 0.05) truncates to zero, the slice keeps no pixel
and the maximum contributes exactly 0 to the total; consequently score can
return 0 even when local maxima were detected — concretely, with radius 1
every neighbourhood holds 5 pixels, so on a constant-100 image with the
single maximum (8, 8) the score is 0 — and get_raw_value then maps the well
to the missing value np.nan. -/
theorem c10_truncation_zero (img : ℕ → ℕ → ℕ) (h w radius : ℕ) (c : ℕ × ℕ)
    (hsmall : (pointsList img h w radius c.1 c.2).length < 20) :
    perMaxSum img h w radius 5 100 c = 0
    ∧ score (fun _ _ => 100) 17 17 1 5 100 [(8, 8)] = 0
    ∧ ([((8 : ℕ), (8 : ℕ))] : List (ℕ × ℕ)) ≠ []
    ∧ get_raw_value (score (fun _ _ => 100) 17 17 1 5 100 [(8, 8)]) = RawValue.nan := by
  refine ⟨?_, by decide, by decide, by decide⟩
  unfold perMaxSum
  rw [Nat.div_eq_of_lt (by omega), List.take_zero]
  rfl

/-- Witness for C10 at the radius-1 neighbourhood of the constant image,
which holds 5 pixels, fewer than 20, and contributes 0. -/
theorem c10_truncation_zero_witness :
    perMaxSum (fun _ _ => 100) 17 17 1 5 100 (8, 8) = 0 :=
  (c10_truncation_zero (fun _ _ => 100) 17 17 1 (8, 8) (by decide)).1
